import Mathlib

/-!
# Verification of the active-learning sentiment-analysis repository

Shallow embedding of the two source notebooks:

* the corpus-partitioning notebook (sampling the 50,000-row IMDB corpus into
  `training_set`, `validation_set` and `unlabeled_pool`, dropping the
  `sentiment` column from the pool), and
* the experiment-management notebook (`preprocessor`, `get_top_runs`,
  `load_model`).

External library functions (NLTK's `word_tokenize`, `PorterStemmer.stem`,
`WordNetLemmatizer.lemmatize`, `nltk.pos_tag`) are not part of the repository;
they are passed as explicit parameters (`ExtParams`) and constrained by
hypotheses where a theorem needs facts about them.  The regular-expression
steps of `preprocessor` are repository code and are embedded faithfully as
structurally recursive character-list functions.
-/

/-- ASCII alphanumeric test: the character class `[a-zA-Z0-9]`
of the source's second `re.sub` pattern. -/
def isAlnum (c : Char) : Bool :=
  ('a' ≤ c && c ≤ 'z') || ('A' ≤ c && c ≤ 'Z') || ('0' ≤ c && c ≤ '9')

/-- ASCII whitespace class of the `\s` pattern of the third `re.sub`. -/
def isWs (c : Char) : Bool :=
  c = ' ' || c = '\t' || c = '\n' || c = '\r' || c = Char.ofNat 11 || c = Char.ofNat 12

/-- `re.sub` of a maximal run of characters failing `keep` by a single `' '`:
the engine of the source's `re.sub("[^a-zA-Z0-9]+", " ", text)` and
`re.sub("\s+", " ", text)`.  The flag records whether we are inside a run
whose replacement space has already been emitted. -/
def collapseAux (keep : Char → Bool) : Bool → List Char → List Char
  | _, [] => []
  | inRun, c :: cs =>
    if keep c then c :: collapseAux keep false cs
    else if inRun then collapseAux keep true cs
    else ' ' :: collapseAux keep true cs

/-- `re.sub("[^a-zA-Z0-9]+", " ", text)` on the character list. -/
def collapseNonAlnum (l : List Char) : List Char :=
  collapseAux isAlnum false l

/-- `re.sub("\s+", " ", text)` on the character list. -/
def collapseWs (l : List Char) : List Char :=
  collapseAux (fun c => !(isWs c)) false l

/-- `re.sub(r'<[^>]+>', '', text)`: drop every `<`, one-or-more non-`>`
characters, `>` group.  The buffer holds (reversed) the characters consumed
since the pending unmatched `<`; on `>` the buffered group is dropped when it
has content (`<x...>`), while a bare `<>` matches nothing and is emitted; at
the end of input a pending buffer never finds its `>` and is emitted as-is,
exactly as the backtracking regex leaves unmatched text in place. -/
def stripAux : Option (List Char) → List Char → List Char
  | none, [] => []
  | some buf, [] => buf.reverse
  | none, c :: cs =>
    if c = '<' then stripAux (some [c]) cs else c :: stripAux none cs
  | some buf, c :: cs =>
    if c = '>' then
      if buf.length ≤ 1 then buf.reverse ++ c :: stripAux none cs
      else stripAux none cs
    else stripAux (some (c :: buf)) cs

/-- Remove HTML tags, as the source's first `re.sub`. -/
def stripTags (l : List Char) : List Char :=
  stripAux none l

/-- `stripTags` on a `String`. -/
def stripTagsS (s : String) : String :=
  String.mk (stripTags s.data)

/-- `collapseNonAlnum` on a `String`. -/
def collapseNonAlnumS (s : String) : String :=
  String.mk (collapseNonAlnum s.data)

/-- `collapseWs` on a `String`. -/
def collapseWsS (s : String) : String :=
  String.mk (collapseWs s.data)

/-- Split a character list into its maximal `' '`-free words
(the accumulator holds the current word reversed). -/
def splitAux (acc : List Char) : List Char → List (List Char)
  | [] => if acc = [] then [] else [acc.reverse]
  | c :: cs =>
    if c = ' ' then
      if acc = [] then splitAux [] cs else acc.reverse :: splitAux [] cs
    else splitAux (c :: acc) cs

/-- Words of a character list, splitting on spaces. -/
def splitWords (l : List Char) : List (List Char) :=
  splitAux [] l

/-- Whitespace words of a string.  Used to instantiate the external
`word_tokenize` on the space-separated alphanumeric text it receives here. -/
def wordsStr (s : String) : List String :=
  (splitWords s.data).map String.mk

/-- Join words with single `' '` separators. -/
def joinSp : List (List Char) → List Char
  | [] => []
  | [w] => w
  | w :: ws => w ++ ' ' :: joinSp ws

/-- `' '.join(tokens)` of the source. -/
def joinTokens (ws : List String) : String :=
  String.mk (joinSp (ws.map String.data))

/-- Every character of the string is ASCII alphanumeric. -/
def isAlnumStr (s : String) : Bool :=
  s.data.all isAlnum

/-- WordNet part-of-speech constants (`wordnet.ADJ/NOUN/VERB/ADV`). -/
inductive WnPos
  | adj
  | noun
  | verb
  | adv
deriving DecidableEq

/-- External NLTK functions consumed by `preprocessor`, passed as explicit
parameters: the tokenizer `word_tokenize`, the Porter stemmer's `stem`, the
WordNet lemmatizer's `lemmatize`, and `nltk.pos_tag` restricted to a single
word (returning the tag string of `nltk.pos_tag([word])[0][1]`). -/
structure ExtParams where
  tok : String → List String
  stem : String → String
  lemmatize : String → WnPos → String
  nltkTag : String → String

/-- The source's inner `pos_tagger`: take the first character of the NLTK tag,
lower-case it, and map it through `tag_dict`, defaulting to `wordnet.NOUN`.
(NLTK tag strings are nonempty; `headD` supplies a dummy character that also
falls through to the noun default.) -/
def pos_tagger (nltkTag : String → String) (w : String) : WnPos :=
  let c := ((nltkTag w).data.headD 'X').toLower
  if c = 'j' then WnPos.adj
  else if c = 'n' then WnPos.noun
  else if c = 'v' then WnPos.verb
  else if c = 'r' then WnPos.adv
  else WnPos.noun

/-- Error taxonomy of the spec.  The source raises a plain `Exception` with
the message below for a bad normalizer mode; the spec's taxonomy names it
`ConfigurationError`.  `NotFoundError` covers the tracker's unknown-run and
missing-artifact failures. -/
inductive MLError
  | configurationError : String → MLError
  | notFoundError : String → MLError
deriving DecidableEq

/-- The message of the `raise` in `preprocessor`. -/
def cfgMsg : String :=
  "Please enter CONFIG[NORMALIZER] as stem or lemma"

/-- A Python value that is either a single string or a list of strings:
the dynamic `str or list` input type of `preprocessor`. -/
inductive PyVal
  | str : String → PyVal
  | list : List String → PyVal
deriving DecidableEq

/-- The token-level normalization selected by the configured mode: the
stemmer for `"stem"`, the lemmatizer fed by `pos_tagger` for `"lemma"`
(any other mode never reaches this map). -/
def modeMap (P : ExtParams) (mode : String) : String → String :=
  if mode = "stem" then P.stem
  else fun w => P.lemmatize w (pos_tagger P.nltkTag w)

/-- The per-text body of `preprocessor`'s loop: the three `re.sub` steps in
source order, then the branch on `CONFIG["NORMALIZER"]`, raising (returning
`Except.error`) when the mode is neither `"stem"` nor `"lemma"`. -/
def normalizeText (P : ExtParams) (mode : String) (text : String) :
    Except MLError String :=
  let t1 := stripTagsS text
  let t2 := collapseNonAlnumS t1
  let t3 := collapseWsS t2
  if mode = "stem" then
    Except.ok (joinTokens ((P.tok t3).map P.stem))
  else if mode = "lemma" then
    Except.ok (joinTokens ((P.tok t3).map
      (fun w => P.lemmatize w (pos_tagger P.nltkTag w))))
  else
    Except.error (MLError.configurationError cfgMsg)

/-- The `for text in corpus` loop of `preprocessor`, appending each
normalized text and propagating the first raised error. -/
def preprocessLoop (P : ExtParams) (mode : String) :
    List String → Except MLError (List String)
  | [] => Except.ok []
  | t :: ts =>
    match normalizeText P mode t with
    | Except.error e => Except.error e
    | Except.ok t2 =>
      match preprocessLoop P mode ts with
      | Except.error e => Except.error e
      | Except.ok rest => Except.ok (t2 :: rest)

/-- The source's `preprocessor`: a bare string is wrapped into a one-element
list, and the result is always the list of normalized texts. -/
def preprocessor (P : ExtParams) (mode : String) (corpus : PyVal) :
    Except MLError PyVal :=
  let l := match corpus with
    | PyVal.str s => [s]
    | PyVal.list ls => ls
  (preprocessLoop P mode l).map PyVal.list

/-- The normalized form of one text under a recognized mode. -/
def normCore (tok : String → List String) (f : String → String) (s : String) :
    String :=
  joinTokens ((tok (collapseWsS (collapseNonAlnumS (stripTagsS s)))).map f)

/-- Concrete instantiation of the external NLTK parameters used by witnesses:
whitespace tokenization, identity stemmer and lemmatizer, constant tag. -/
def P0 : ExtParams where
  tok := wordsStr
  stem := fun w => w
  lemmatize := fun w _ => w
  nltkTag := fun _ => "NN"

instance {e a : Type} [DecidableEq e] [DecidableEq a] : DecidableEq (Except e a) := fun x y =>
  match x, y with
  | Except.ok u, Except.ok v => decidable_of_iff (u = v) (by simp)
  | Except.error u, Except.error v => decidable_of_iff (u = v) (by simp)
  | Except.ok _, Except.error _ => isFalse (by simp)
  | Except.error _, Except.ok _ => isFalse (by simp)

/-- One row of the IMDB corpus as handled by the partitioning notebook:
the stable integer id (the original row position, carried as the pandas
index / the `id` column), the review text, and the sentiment label
(`none` once the `sentiment` column has been dropped). -/
structure Row where
  id : ℕ
  review : String
  sentiment : Option String
deriving DecidableEq

/-- The id set of a data frame. -/
def idsOf (df : List Row) : Finset ℕ :=
  (df.map Row.id).toFinset

/-- `df.drop(sample.index)`: remove the rows whose index (id) occurs in the
sampled frame. -/
def dropRows (df : List Row) (sample : List Row) : List Row :=
  df.filter (fun r => decide (r.id ∉ sample.map Row.id))

/-- `df.drop(columns="sentiment")`: forget every label. -/
def dropSentiment (df : List Row) : List Row :=
  df.map (fun r => { r with sentiment := none })

/-- The partitioning cells of the notebook, in source order:
`training_set = df.sample(5000); df = df.drop(training_set.index);`
`validation_set = df.sample(2000); df = df.drop(validation_set.index);`
`unlabeled_pool = df.copy().drop(columns="sentiment")`.
The two pseudo-random samples are parameters (`pandas.sample` draws distinct
rows of its frame; theorems hypothesize exactly that). -/
def partitionCorpus (corpus training_set validation_set : List Row) :
    List Row × List Row × List Row :=
  let df1 := dropRows corpus training_set
  let df2 := dropRows df1 validation_set
  (training_set, validation_set, dropSentiment df2)

/-- A Run Record as exposed by the tracker's search surface: run id,
start time, the `model_type` tag, and the accuracy metric (exact rational
in the embedding). -/
structure RunRecord where
  run_id : String
  start_time : ℤ
  model_type : String
  accuracy : ℚ
deriving DecidableEq

/-- The order `metrics.accuracy DESC` with ties broken by earliest
start time: higher accuracy first, equal accuracies ordered by start time. -/
def runOrder (r1 r2 : RunRecord) : Prop :=
  r2.accuracy < r1.accuracy ∨ (r1.accuracy = r2.accuracy ∧ r1.start_time ≤ r2.start_time)

instance : DecidableRel runOrder := fun r1 r2 => by
  unfold runOrder; infer_instance

instance : IsTotal RunRecord runOrder where
  total r1 r2 := by
    unfold runOrder
    rcases lt_trichotomy r1.accuracy r2.accuracy with h | h | h
    · exact Or.inr (Or.inl h)
    · rcases le_total r1.start_time r2.start_time with h2 | h2
      · exact Or.inl (Or.inr ⟨h, h2⟩)
      · exact Or.inr (Or.inr ⟨h.symm, h2⟩)
    · exact Or.inl (Or.inl h)

instance : IsTrans RunRecord runOrder where
  trans r1 r2 r3 h12 h23 := by
    unfold runOrder at *
    rcases h12 with h12 | ⟨he12, hs12⟩
    · rcases h23 with h23 | ⟨he23, _⟩
      · exact Or.inl (h23.trans h12)
      · exact Or.inl (he23 ▸ h12)
    · rcases h23 with h23 | ⟨he23, hs23⟩
      · exact Or.inl (he12 ▸ h23)
      · exact Or.inr ⟨he12.trans he23, hs12.trans hs23⟩

/-- Modelled from the spec: the sorting of `client.search_runs(...,
order_by=["metrics.accuracy DESC"], max_results=...)` is performed by the
mlflow tracking server, whose code is not among the repository's sources;
per the spec, `search` with `order_by = metric DESC` returns results in
descending metric order, ties broken by earliest start_time, truncated to
`max_results`. -/
def search_runs (runs : List RunRecord) (max_results : ℕ) : List RunRecord :=
  (List.insertionSort runOrder runs).take max_results

/-- The source's `get_top_runs`: query the tracker ordered by
`metrics.accuracy DESC` and collect the run ids in returned order. -/
def get_top_runs (runs : List RunRecord) (max_results : ℕ) : List String :=
  (search_runs runs max_results).map RunRecord.run_id

/-- The spec's tracker-ordering scenario: Run Records with accuracies
`[0.81, 0.80, 0.75]` (listed here out of order to make the sort visible). -/
def demoRuns : List RunRecord :=
  [ { run_id := "run_b", start_time := 20, model_type := "SGDClassifier", accuracy := 80/100 },
    { run_id := "run_c", start_time := 15, model_type := "Random Forest", accuracy := 75/100 },
    { run_id := "run_a", start_time := 10, model_type := "Naive Bayes", accuracy := 81/100 } ]

/-- Modelled from the spec: the tracker's run store and artifact store behind
`client.get_run` and `mlflow.sklearn.load_model`, which live in the mlflow
library/server, not in the repository's sources.  A run id maps to its Run
Record when known; an artifact loads to a model value only when present and
readable (missing or corrupted artifacts yield `none`). -/
structure TrackerStore (Model : Type) where
  runs : String → Option RunRecord
  artifacts : String → Option Model

/-- Modelled from the spec: `load_model` resolves the run id against the
tracker, then loads the run's artifact; an unknown run id or a missing or
corrupted artifact fails with `NotFoundError`, and no default model is
substituted. -/
def load_model {Model : Type} (store : TrackerStore Model) (run_id : String) :
    Except MLError Model :=
  match store.runs run_id with
  | none => Except.error (MLError.notFoundError run_id)
  | some _ =>
    match store.artifacts run_id with
    | none => Except.error (MLError.notFoundError run_id)
    | some m => Except.ok m

/-- A tracker store with no runs and no artifacts, for witnesses. -/
def emptyStore : TrackerStore ℕ where
  runs := fun _ => none
  artifacts := fun _ => none

/-- The three regex steps of `preprocessor` composed, on the character
list. -/
def cleanData (l : List Char) : List Char :=
  collapseWs (collapseNonAlnum (stripTags l))

/-- A small concrete labeled corpus, for witnesses. -/
def demoCorpus : List Row :=
  [ { id := 0, review := "good film", sentiment := some "positive" },
    { id := 1, review := "bad film", sentiment := some "negative" },
    { id := 2, review := "fine film", sentiment := some "positive" },
    { id := 3, review := "dull film", sentiment := some "negative" } ]

/-- A concrete training sample of `demoCorpus`, for witnesses. -/
def demoTr : List Row :=
  [ { id := 2, review := "fine film", sentiment := some "positive" } ]

/-- A concrete validation sample of the remaining frame, for witnesses. -/
def demoVal : List Row :=
  [ { id := 0, review := "good film", sentiment := some "positive" } ]

theorem data_mk (l : List Char) : (String.mk l).data = l := rfl

theorem normalizeText_ok (P : ExtParams) {mode : String}
    (hmode : mode = "stem" ∨ mode = "lemma") (s : String) :
    normalizeText P mode s = Except.ok (normCore P.tok (modeMap P mode) s) := by
  rcases hmode with h | h <;> subst h <;>
    simp [normalizeText, normCore, modeMap]

theorem normalizeText_err (P : ExtParams) {mode : String}
    (h1 : mode ≠ "stem") (h2 : mode ≠ "lemma") (s : String) :
    normalizeText P mode s = Except.error (MLError.configurationError cfgMsg) := by
  simp [normalizeText, h1, h2]

theorem preprocessLoop_ok (P : ExtParams) {mode : String}
    (hmode : mode = "stem" ∨ mode = "lemma") (l : List String) :
    preprocessLoop P mode l =
      Except.ok (l.map (normCore P.tok (modeMap P mode))) := by
  induction l with
  | nil => rfl
  | cons t ts ih => simp [preprocessLoop, normalizeText_ok P hmode, ih]

theorem preprocessor_str_ok (P : ExtParams) {mode : String}
    (hmode : mode = "stem" ∨ mode = "lemma") (s : String) :
    preprocessor P mode (PyVal.str s) =
      Except.ok (PyVal.list [normCore P.tok (modeMap P mode) s]) := by
  simp [preprocessor, preprocessLoop_ok P hmode, Except.map]

theorem preprocessor_list_ok (P : ExtParams) {mode : String}
    (hmode : mode = "stem" ∨ mode = "lemma") (l : List String) :
    preprocessor P mode (PyVal.list l) =
      Except.ok (PyVal.list (l.map (normCore P.tok (modeMap P mode)))) := by
  simp [preprocessor, preprocessLoop_ok P hmode, Except.map]

theorem preprocessor_str_err (P : ExtParams) {mode : String}
    (h1 : mode ≠ "stem") (h2 : mode ≠ "lemma") (s : String) :
    preprocessor P mode (PyVal.str s) =
      Except.error (MLError.configurationError cfgMsg) := by
  simp [preprocessor, preprocessLoop, normalizeText_err P h1 h2, Except.map]

/-- C3: for every input text the preprocessor succeeds exactly when the
configured normalizer mode is `"stem"` or `"lemma"`, and fails with the
configuration error (the source's `raise`, named ConfigurationError by the
spec's taxonomy) for every other mode. -/
theorem c3_mode_error (P : ExtParams) (mode : String) (s : String) :
    ((∃ out, preprocessor P mode (PyVal.str s) = Except.ok out) ↔
      (mode = "stem" ∨ mode = "lemma")) ∧
    (mode ≠ "stem" → mode ≠ "lemma" →
      preprocessor P mode (PyVal.str s) =
        Except.error (MLError.configurationError cfgMsg)) := by
  constructor
  · constructor
    · intro ⟨out, hout⟩
      by_cases h1 : mode = "stem"
      · exact Or.inl h1
      by_cases h2 : mode = "lemma"
      · exact Or.inr h2
      rw [preprocessor_str_err P h1 h2] at hout
      exact absurd hout (by simp)
    · intro hmode
      exact ⟨_, preprocessor_str_ok P hmode s⟩
  · intro h1 h2
    exact preprocessor_str_err P h1 h2 s

theorem c3_mode_error_witness :
    ((∃ out, preprocessor P0 "tfidf" (PyVal.str "movie") = Except.ok out) ↔
      (("tfidf" : String) = "stem" ∨ ("tfidf" : String) = "lemma")) ∧
    preprocessor P0 "tfidf" (PyVal.str "movie") =
      Except.error (MLError.configurationError cfgMsg) :=
  ⟨(c3_mode_error P0 "tfidf" "movie").1,
    (c3_mode_error P0 "tfidf" "movie").2 (by decide) (by decide)⟩

/-- C4, counterexample: on a bare string input the preprocessor returns a
one-element list, never a value of string shape, so the output does not have
the same shape as the input. -/
theorem c4_counterexample :
    preprocessor P0 "stem" (PyVal.str "ab") = Except.ok (PyVal.list ["ab"]) ∧
    ∀ t, PyVal.list ["ab"] ≠ PyVal.str t :=
  ⟨by decide, fun _ h => PyVal.noConfusion h⟩

/-- C4, amended: under a recognized mode the preprocessor is a deterministic
function returning normalized text of list shape for every input: a
one-element list for a string input and an equal-length list for a list
input. -/
theorem c4_amended (P : ExtParams) (mode : String)
    (hmode : mode = "stem" ∨ mode = "lemma") (s : String) (l : List String) :
    (∃ t, preprocessor P mode (PyVal.str s) = Except.ok (PyVal.list [t])) ∧
    (∃ outs, preprocessor P mode (PyVal.list l) = Except.ok (PyVal.list outs) ∧
      outs.length = l.length) :=
  ⟨⟨_, preprocessor_str_ok P hmode s⟩,
    ⟨_, preprocessor_list_ok P hmode l, List.length_map _ _⟩⟩

theorem c4_amended_witness :
    (∃ t, preprocessor P0 "stem" (PyVal.str "a<b> c") =
      Except.ok (PyVal.list [t])) ∧
    (∃ outs, preprocessor P0 "stem" (PyVal.list ["x", "y!"]) =
      Except.ok (PyVal.list outs) ∧ outs.length = 2) :=
  c4_amended P0 "stem" (Or.inl rfl) "a<b> c" ["x", "y!"]

/-- C9: a bare string input is wrapped and normalized to a one-element list
(never returned as a bare string), and a list input yields exactly one output
text per input text, in input order. -/
theorem c9_output_shape (P : ExtParams) (mode : String)
    (hmode : mode = "stem" ∨ mode = "lemma") (s : String) (l : List String) :
    preprocessor P mode (PyVal.str s) =
      Except.ok (PyVal.list [normCore P.tok (modeMap P mode) s]) ∧
    preprocessor P mode (PyVal.list l) =
      Except.ok (PyVal.list (l.map (normCore P.tok (modeMap P mode)))) ∧
    (∀ out t, preprocessor P mode (PyVal.str s) = Except.ok out →
      out ≠ PyVal.str t) := by
  refine ⟨preprocessor_str_ok P hmode s, preprocessor_list_ok P hmode l, ?_⟩
  intro out t hout
  rw [preprocessor_str_ok P hmode s] at hout
  cases hout
  exact fun h => PyVal.noConfusion h

theorem c9_output_shape_witness :
    preprocessor P0 "stem" (PyVal.str "hi there") =
      Except.ok (PyVal.list [normCore P0.tok (modeMap P0 "stem") "hi there"]) ∧
    preprocessor P0 "stem" (PyVal.list ["u", "v"]) =
      Except.ok (PyVal.list
        (["u", "v"].map (normCore P0.tok (modeMap P0 "stem")))) ∧
    (∀ out t, preprocessor P0 "stem" (PyVal.str "hi there") = Except.ok out →
      out ≠ PyVal.str t) :=
  c9_output_shape P0 "stem" (Or.inl rfl) "hi there" ["u", "v"]

/-- C5: normalization performs exactly the source's steps in order — strip
markup tags, collapse non-alphanumeric runs to single separators, collapse
whitespace, then exactly one of stemming or lemmatization according to the
mode — and the lemmatization part-of-speech tag defaults to noun whenever
the tag's first letter is none of the recognized ones. -/
theorem c5_pipeline_steps (P : ExtParams) :
    (∀ s, normalizeText P "stem" s =
      Except.ok (joinTokens
        ((P.tok (collapseWsS (collapseNonAlnumS (stripTagsS s)))).map P.stem))) ∧
    (∀ s, normalizeText P "lemma" s =
      Except.ok (joinTokens
        ((P.tok (collapseWsS (collapseNonAlnumS (stripTagsS s)))).map
          (fun w => P.lemmatize w (pos_tagger P.nltkTag w))))) ∧
    (∀ tg w, ((tg w).data.headD 'X').toLower ∉ (['j', 'n', 'v', 'r'] : List Char) →
      pos_tagger tg w = WnPos.noun) := by
  refine ⟨fun s => by simp [normalizeText], fun s => by simp [normalizeText], ?_⟩
  intro tg w h
  simp only [List.mem_cons, List.not_mem_nil, or_false, not_or] at h
  obtain ⟨h1, h2, h3, h4⟩ := h
  simp only [pos_tagger]
  split_ifs
  rfl

theorem c5_pipeline_steps_witness :
    normalizeText P0 "stem" "a<b>c" =
      Except.ok (joinTokens
        ((P0.tok (collapseWsS (collapseNonAlnumS (stripTagsS "a<b>c")))).map
          P0.stem)) ∧
    pos_tagger (fun _ => "XX") "dog" = WnPos.noun :=
  ⟨(c5_pipeline_steps P0).1 "a<b>c",
    (c5_pipeline_steps P0).2.2 (fun _ => "XX") "dog" (by decide)⟩

/-- C6: `load_model` fails with `NotFoundError` when the run id is unknown to
the tracker or its artifact is missing or corrupted, and a successful load
returns exactly the stored artifact of a known run — never a substituted
default model. -/
theorem c6_load_model {Model : Type} (store : TrackerStore Model)
    (rid : String) :
    (store.runs rid = none ∨ store.artifacts rid = none →
      load_model store rid = Except.error (MLError.notFoundError rid)) ∧
    (∀ m, load_model store rid = Except.ok m →
      store.artifacts rid = some m ∧ (store.runs rid).isSome) := by
  constructor
  · intro h
    rcases h with h | h
    · simp [load_model, h]
    · cases hr : store.runs rid <;> simp [load_model, hr, h]
  · intro m hm
    cases hr : store.runs rid with
    | none => simp [load_model, hr] at hm
    | some rec0 =>
      cases ha : store.artifacts rid with
      | none => simp [load_model, hr, ha] at hm
      | some m2 =>
        simp [load_model, hr, ha] at hm
        subst hm
        exact ⟨rfl, rfl⟩

theorem c6_load_model_witness :
    load_model emptyStore "run_x" =
      Except.error (MLError.notFoundError "run_x") :=
  (c6_load_model emptyStore "run_x").1 (Or.inl rfl)

/-- C1: the tracker's search under `order_by = accuracy DESC` returns runs in
descending accuracy order with ties broken by earliest start time (for every
collection of Run Records and every `max_results` bound), and on the spec's
scenario of accuracies `[0.81, 0.80, 0.75]` the three run ids come back in
exactly that accuracy order. -/
theorem c1_tracker_ordering :
    (∀ (runs : List RunRecord) (k : ℕ),
      List.Sorted runOrder (search_runs runs k)) ∧
    get_top_runs demoRuns 3 = ["run_a", "run_b", "run_c"] := by
  constructor
  · intro runs k
    exact List.Pairwise.sublist (List.take_sublist _ _)
      (List.sorted_insertionSort runOrder runs)
  · norm_num [get_top_runs, search_runs, demoRuns, List.insertionSort,
      List.orderedInsert, runOrder]

theorem idsOf_mem {df : List Row} {x : ℕ} :
    x ∈ idsOf df ↔ ∃ r ∈ df, r.id = x := by
  simp [idsOf]

theorem idsOf_dropRows (df s : List Row) :
    idsOf (dropRows df s) = idsOf df \ idsOf s := by
  ext x
  simp only [idsOf, dropRows, List.mem_toFinset, List.mem_map, List.mem_filter,
    Finset.mem_sdiff, decide_eq_true_eq]
  constructor
  · rintro ⟨r, ⟨hr, hns⟩, rfl⟩
    exact ⟨⟨r, hr, rfl⟩, fun ⟨r2, h2, he⟩ => hns ⟨r2, h2, he⟩⟩
  · rintro ⟨⟨r, hr, rfl⟩, hn⟩
    exact ⟨r, ⟨hr, fun ⟨r2, h2, he⟩ => hn ⟨r2, h2, he⟩⟩, rfl⟩

theorem idsOf_dropSentiment (df : List Row) :
    idsOf (dropSentiment df) = idsOf df := by
  ext x
  simp [idsOf, dropSentiment]

theorem partition_pool_ids (corpus tr val : List Row) :
    idsOf (partitionCorpus corpus tr val).2.2 =
      (idsOf corpus \ idsOf tr) \ idsOf val := by
  simp [partitionCorpus, idsOf_dropSentiment, idsOf_dropRows]

/-- C2: after partitioning, the Training, Validation and UnlabeledPool id
sets are pairwise disjoint and their union is exactly the id set of the
original corpus (for every corpus and every pair of pandas samples, which
draw rows of the frame they sample). -/
theorem c2_partition_ids (corpus tr val : List Row)
    (htr : idsOf tr ⊆ idsOf corpus)
    (hval : idsOf val ⊆ idsOf (dropRows corpus tr)) :
    Disjoint (idsOf (partitionCorpus corpus tr val).1)
      (idsOf (partitionCorpus corpus tr val).2.1) ∧
    Disjoint (idsOf (partitionCorpus corpus tr val).1)
      (idsOf (partitionCorpus corpus tr val).2.2) ∧
    Disjoint (idsOf (partitionCorpus corpus tr val).2.1)
      (idsOf (partitionCorpus corpus tr val).2.2) ∧
    idsOf (partitionCorpus corpus tr val).1 ∪
      idsOf (partitionCorpus corpus tr val).2.1 ∪
      idsOf (partitionCorpus corpus tr val).2.2 = idsOf corpus := by
  rw [idsOf_dropRows] at hval
  have h1 : (partitionCorpus corpus tr val).1 = tr := rfl
  have h2 : (partitionCorpus corpus tr val).2.1 = val := rfl
  rw [h1, h2, partition_pool_ids]
  refine ⟨?_, ?_, ?_, ?_⟩
  · exact Finset.disjoint_sdiff.mono_right hval
  · exact Finset.disjoint_sdiff.mono_right Finset.sdiff_subset
  · exact Finset.sdiff_disjoint.symm
  · rw [Finset.union_assoc, Finset.union_sdiff_of_subset hval,
      Finset.union_sdiff_of_subset htr]

theorem c2_partition_ids_witness :
    idsOf demoTr ⊆ idsOf demoCorpus ∧
    idsOf demoVal ⊆ idsOf (dropRows demoCorpus demoTr) ∧
    (Disjoint (idsOf (partitionCorpus demoCorpus demoTr demoVal).1)
      (idsOf (partitionCorpus demoCorpus demoTr demoVal).2.1) ∧
    Disjoint (idsOf (partitionCorpus demoCorpus demoTr demoVal).1)
      (idsOf (partitionCorpus demoCorpus demoTr demoVal).2.2) ∧
    Disjoint (idsOf (partitionCorpus demoCorpus demoTr demoVal).2.1)
      (idsOf (partitionCorpus demoCorpus demoTr demoVal).2.2) ∧
    idsOf (partitionCorpus demoCorpus demoTr demoVal).1 ∪
      idsOf (partitionCorpus demoCorpus demoTr demoVal).2.1 ∪
      idsOf (partitionCorpus demoCorpus demoTr demoVal).2.2 =
        idsOf demoCorpus) :=
  ⟨by decide, by decide,
    c2_partition_ids demoCorpus demoTr demoVal (by decide) (by decide)⟩

theorem mem_dropRows_imp {df s : List Row} {r : Row} (h : r ∈ dropRows df s) :
    r ∈ df :=
  (List.mem_filter.mp h).1

/-- C8: after partitioning, every Example in the UnlabeledPool carries no
sentiment label, every Example in Training and in Validation carries one,
and for every Example of the three pools the label is present exactly when
the Example is not in the UnlabeledPool. -/
theorem c8_labels (corpus tr val : List Row)
    (hcorp : ∀ r ∈ corpus, r.sentiment.isSome)
    (htr : ∀ r ∈ tr, r ∈ corpus)
    (hval : ∀ r ∈ val, r ∈ dropRows corpus tr) :
    (∀ r ∈ (partitionCorpus corpus tr val).2.2, r.sentiment = none) ∧
    (∀ r ∈ (partitionCorpus corpus tr val).1, r.sentiment.isSome) ∧
    (∀ r ∈ (partitionCorpus corpus tr val).2.1, r.sentiment.isSome) ∧
    (∀ r, r ∈ (partitionCorpus corpus tr val).1 ∨
        r ∈ (partitionCorpus corpus tr val).2.1 ∨
        r ∈ (partitionCorpus corpus tr val).2.2 →
      (r.sentiment.isSome ↔
        r.id ∉ idsOf (partitionCorpus corpus tr val).2.2)) := by
  have hT : (partitionCorpus corpus tr val).1 = tr := rfl
  have hV : (partitionCorpus corpus tr val).2.1 = val := rfl
  have hU : (partitionCorpus corpus tr val).2.2 =
      dropSentiment (dropRows (dropRows corpus tr) val) := rfl
  have hpool : ∀ r ∈ (partitionCorpus corpus tr val).2.2, r.sentiment = none := by
    rw [hU]
    intro r hr
    obtain ⟨r0, _, rfl⟩ := List.mem_map.mp hr
    rfl
  have htrS : ∀ r ∈ tr, r.sentiment.isSome := fun r hr => hcorp r (htr r hr)
  have hvalS : ∀ r ∈ val, r.sentiment.isSome :=
    fun r hr => hcorp r (mem_dropRows_imp (hval r hr))
  refine ⟨hpool, hT ▸ htrS, hV ▸ hvalS, ?_⟩
  have hUids : idsOf (partitionCorpus corpus tr val).2.2 =
      (idsOf corpus \ idsOf tr) \ idsOf val := partition_pool_ids corpus tr val
  intro r hr
  rcases hr with hr | hr | hr
  · rw [hT] at hr
    have hid : r.id ∈ idsOf tr := idsOf_mem.mpr ⟨r, hr, rfl⟩
    simp only [htrS r hr, true_iff, hUids]
    intro hmem
    exact absurd hid (Finset.mem_sdiff.mp (Finset.mem_sdiff.mp hmem).1).2
  · rw [hV] at hr
    have hid : r.id ∈ idsOf val := idsOf_mem.mpr ⟨r, hr, rfl⟩
    simp only [hvalS r hr, true_iff, hUids]
    intro hmem
    exact absurd hid (Finset.mem_sdiff.mp hmem).2
  · have hid : r.id ∈ idsOf (partitionCorpus corpus tr val).2.2 :=
      idsOf_mem.mpr ⟨r, hr, rfl⟩
    simp [hpool r hr, hid]

theorem c8_labels_witness :
    (∀ r ∈ (partitionCorpus demoCorpus demoTr demoVal).2.2,
      r.sentiment = none) ∧
    (∀ r ∈ (partitionCorpus demoCorpus demoTr demoVal).1,
      r.sentiment.isSome) ∧
    (∀ r ∈ (partitionCorpus demoCorpus demoTr demoVal).2.1,
      r.sentiment.isSome) ∧
    (∀ r, r ∈ (partitionCorpus demoCorpus demoTr demoVal).1 ∨
        r ∈ (partitionCorpus demoCorpus demoTr demoVal).2.1 ∨
        r ∈ (partitionCorpus demoCorpus demoTr demoVal).2.2 →
      (r.sentiment.isSome ↔
        r.id ∉ idsOf (partitionCorpus demoCorpus demoTr demoVal).2.2)) :=
  c8_labels demoCorpus demoTr demoVal (by decide) (by decide) (by decide)

theorem alnum_ne_sp {c : Char} (h : isAlnum c = true) : c ≠ ' ' := by
  intro hc
  subst hc
  exact absurd h (by decide)

theorem alnum_ne_lt {c : Char} (h : isAlnum c = true) : c ≠ '<' := by
  intro hc
  subst hc
  exact absurd h (by decide)

theorem alnum_not_ws {c : Char} (h : isAlnum c = true) : (!(isWs c)) = true := by
  by_contra hw
  simp only [Bool.not_eq_true', Bool.not_eq_false] at hw
  simp only [isWs, Bool.or_eq_true, decide_eq_true_eq] at hw
  rcases hw with ((((hc | hc) | hc) | hc) | hc) | hc <;>
    (subst hc; exact absurd h (by decide))

theorem collapseAux_mem_keep (keep : Char → Bool) :
    ∀ (l : List Char) (b : Bool) (c : Char), c ∈ collapseAux keep b l →
      keep c = true ∨ c = ' ' := by
  intro l
  induction l with
  | nil =>
    intro b c h
    simp [collapseAux] at h
  | cons d ds ih =>
    intro b c h
    by_cases hk : keep d
    · rw [collapseAux, if_pos hk] at h
      rcases List.mem_cons.mp h with rfl | h2
      · exact Or.inl hk
      · exact ih false c h2
    · rw [collapseAux, if_neg hk] at h
      cases b with
      | true =>
        rw [if_pos rfl] at h
        exact ih true c h
      | false =>
        rw [if_neg (by simp)] at h
        rcases List.mem_cons.mp h with rfl | h2
        · exact Or.inr rfl
        · exact ih true c h2

theorem stripAux_no_lt :
    ∀ l : List Char, (∀ c ∈ l, c ≠ '<') → stripAux none l = l := by
  intro l
  induction l with
  | nil => intro _; rfl
  | cons d ds ih =>
    intro h
    have hd : d ≠ '<' := h d (List.mem_cons_self d ds)
    rw [stripAux, if_neg hd, ih (fun c hc => h c (List.mem_cons_of_mem d hc))]

theorem collapseAux_keep_prefix (keep : Char → Bool) :
    ∀ (w rest : List Char), (∀ c ∈ w, keep c = true) →
      collapseAux keep false (w ++ rest) = w ++ collapseAux keep false rest := by
  intro w
  induction w with
  | nil => intro rest _; rfl
  | cons d ds ih =>
    intro rest h
    have hd : keep d = true := h d (List.mem_cons_self d ds)
    rw [List.cons_append, collapseAux, if_pos hd,
      ih rest (fun c hc => h c (List.mem_cons_of_mem d hc)), List.cons_append]

theorem collapseAux_true_of_head (keep : Char → Bool) :
    ∀ t : List Char, (t = [] ∨ ∃ d ds, t = d :: ds ∧ keep d = true) →
      collapseAux keep true t = collapseAux keep false t := by
  intro t h
  rcases h with rfl | ⟨d, ds, rfl, hd⟩
  · rfl
  · rw [collapseAux, collapseAux, if_pos hd, if_pos hd]

theorem joinSp_cons2 (w w2 : List Char) (ws : List (List Char)) :
    joinSp (w :: w2 :: ws) = w ++ ' ' :: joinSp (w2 :: ws) := rfl

theorem joinSp_mem :
    ∀ (ws : List (List Char)) (c : Char), c ∈ joinSp ws →
      (∃ w ∈ ws, c ∈ w) ∨ c = ' ' := by
  intro ws
  induction ws with
  | nil => intro c h; simp [joinSp] at h
  | cons w ws ih =>
    intro c h
    cases ws with
    | nil =>
      rw [joinSp] at h
      exact Or.inl ⟨w, List.mem_cons_self w [], h⟩
    | cons w2 rest =>
      rw [joinSp_cons2] at h
      rcases List.mem_append.mp h with h1 | h2
      · exact Or.inl ⟨w, List.mem_cons_self _ _, h1⟩
      · rcases List.mem_cons.mp h2 with rfl | h3
        · exact Or.inr rfl
        · rcases ih c h3 with ⟨w3, hw3, hc3⟩ | hc
          · exact Or.inl ⟨w3, List.mem_cons_of_mem _ hw3, hc3⟩
          · exact Or.inr hc

theorem canonical_fixed (keep : Char → Bool) (hsp : keep ' ' = false) :
    ∀ ws : List (List Char),
      (∀ w ∈ ws, w ≠ [] ∧ ∀ c ∈ w, keep c = true) →
      collapseAux keep false (joinSp ws) = joinSp ws := by
  intro ws
  induction ws with
  | nil => intro _; rfl
  | cons w ws ih =>
    intro h
    obtain ⟨hw, hwk⟩ := h w (List.mem_cons_self w ws)
    cases ws with
    | nil =>
      rw [joinSp]
      have := collapseAux_keep_prefix keep w [] hwk
      rw [List.append_nil] at this
      rw [this]
      simp [collapseAux]
    | cons w2 rest =>
      rw [joinSp_cons2, collapseAux_keep_prefix keep w _ hwk, collapseAux,
        if_neg (by simp [hsp]), if_neg (by simp)]
      obtain ⟨hw2, hw2k⟩ := h w2 (List.mem_cons_of_mem w (List.mem_cons_self w2 rest))
      have hhead : joinSp (w2 :: rest) = [] ∨
          ∃ d ds, joinSp (w2 :: rest) = d :: ds ∧ keep d = true := by
        cases rest with
        | nil =>
          rw [joinSp]
          cases w2 with
          | nil => exact absurd rfl hw2
          | cons d ds => exact Or.inr ⟨d, ds, rfl, hw2k d (List.mem_cons_self d ds)⟩
        | cons w3 rest2 =>
          rw [joinSp_cons2]
          cases w2 with
          | nil => exact absurd rfl hw2
          | cons d ds =>
            exact Or.inr ⟨d, ds ++ ' ' :: joinSp (w3 :: rest2), rfl,
              hw2k d (List.mem_cons_self d ds)⟩
      rw [collapseAux_true_of_head keep _ hhead,
        ih (fun w3 hw3 => h w3 (List.mem_cons_of_mem w hw3))]

theorem splitAux_word :
    ∀ w : List Char, (∀ c ∈ w, c ≠ ' ') → ∀ (acc l : List Char),
      splitAux acc (w ++ l) = splitAux (w.reverse ++ acc) l := by
  intro w
  induction w with
  | nil => intro _ acc l; simp
  | cons d ds ih =>
    intro h acc l
    have hd : d ≠ ' ' := h d (List.mem_cons_self d ds)
    rw [List.cons_append, splitAux, if_neg hd,
      ih (fun c hc => h c (List.mem_cons_of_mem d hc)) (d :: acc) l]
    congr 1
    simp

theorem splitWords_joinSp :
    ∀ ws : List (List Char),
      (∀ w ∈ ws, w ≠ [] ∧ ∀ c ∈ w, c ≠ ' ') →
      splitWords (joinSp ws) = ws := by
  intro ws
  induction ws with
  | nil => intro _; rfl
  | cons w ws ih =>
    intro h
    obtain ⟨hw, hwc⟩ := h w (List.mem_cons_self w ws)
    cases ws with
    | nil =>
      show splitAux [] (joinSp [w]) = [w]
      have h0 := splitAux_word w hwc [] []
      simp only [List.append_nil] at h0
      rw [joinSp, h0, splitAux, if_neg (by simp [hw]), List.reverse_reverse]
    | cons w2 rest =>
      show splitAux [] (joinSp (w :: w2 :: rest)) = w :: w2 :: rest
      have h0 := splitAux_word w hwc [] (' ' :: joinSp (w2 :: rest))
      simp only [List.append_nil] at h0
      rw [joinSp_cons2, h0, splitAux, if_pos rfl, if_neg (by simp [hw]),
        List.reverse_reverse]
      have h1 := ih (fun w3 hw3 => h w3 (List.mem_cons_of_mem w hw3))
      rw [splitWords] at h1
      rw [h1]

theorem splitAux_sound :
    ∀ (l acc : List Char), (∀ c ∈ acc, c ≠ ' ') →
      ∀ w ∈ splitAux acc l, w ≠ [] ∧ ∀ c ∈ w, (c ∈ acc ∨ c ∈ l) ∧ c ≠ ' ' := by
  intro l
  induction l with
  | nil =>
    intro acc hacc w hw
    rw [splitAux] at hw
    by_cases ha : acc = []
    · rw [if_pos ha] at hw
      simp at hw
    · rw [if_neg ha] at hw
      rcases List.mem_cons.mp hw with rfl | h2
      · refine ⟨by simp [ha], fun c hc => ?_⟩
        rw [List.mem_reverse] at hc
        exact ⟨Or.inl hc, hacc c hc⟩
      · simp at h2
  | cons d ds ih =>
    intro acc hacc w hw
    rw [splitAux] at hw
    by_cases hd : d = ' '
    · rw [if_pos hd] at hw
      by_cases ha : acc = []
      · rw [if_pos ha] at hw
        obtain ⟨hne, hc⟩ := ih [] (by simp) w hw
        exact ⟨hne, fun c hcw =>
          ⟨Or.inr (List.mem_cons_of_mem d
            (((hc c hcw).1).resolve_left (List.not_mem_nil c))), (hc c hcw).2⟩⟩
      · rw [if_neg ha] at hw
        rcases List.mem_cons.mp hw with rfl | h2
        · refine ⟨by simp [ha], fun c hc => ?_⟩
          rw [List.mem_reverse] at hc
          exact ⟨Or.inl hc, hacc c hc⟩
        · obtain ⟨hne, hc⟩ := ih [] (by simp) w h2
          exact ⟨hne, fun c hcw =>
            ⟨Or.inr (List.mem_cons_of_mem d
              (((hc c hcw).1).resolve_left (List.not_mem_nil c))), (hc c hcw).2⟩⟩
    · rw [if_neg hd] at hw
      have hacc2 : ∀ c ∈ (d :: acc), c ≠ ' ' := by
        intro c hc
        rcases List.mem_cons.mp hc with rfl | h2
        · exact hd
        · exact hacc c h2
      obtain ⟨hne, hc⟩ := ih (d :: acc) hacc2 w hw
      refine ⟨hne, fun c hcw => ?_⟩
      obtain ⟨hor, hne2⟩ := hc c hcw
      rcases hor with h1 | h1
      · rcases List.mem_cons.mp h1 with rfl | h2
        · exact ⟨Or.inr (List.mem_cons_self c ds), hne2⟩
        · exact ⟨Or.inl h2, hne2⟩
      · exact ⟨Or.inr (List.mem_cons_of_mem d h1), hne2⟩

theorem splitWords_sound (l : List Char) :
    ∀ w ∈ splitWords l, w ≠ [] ∧ ∀ c ∈ w, c ∈ l ∧ c ≠ ' ' := by
  intro w hw
  obtain ⟨hne, hc⟩ := splitAux_sound l [] (by simp) w hw
  exact ⟨hne, fun c hcw =>
    ⟨((hc c hcw).1).resolve_left (List.not_mem_nil c), (hc c hcw).2⟩⟩

theorem collapseAux_stable (keep1 keep2 : Char → Bool)
    (h12 : ∀ c, keep1 c = true → keep2 c = true) (hsp : keep2 ' ' = false) :
    ∀ l : List Char,
      collapseAux keep2 false (collapseAux keep1 false l) =
        collapseAux keep1 false l ∧
      collapseAux keep2 false (collapseAux keep1 true l) =
        collapseAux keep1 true l ∧
      collapseAux keep2 true (collapseAux keep1 true l) =
        collapseAux keep1 true l := by
  intro l
  induction l with
  | nil => exact ⟨rfl, rfl, rfl⟩
  | cons c cs ih =>
    obtain ⟨ih1, ih2, ih3⟩ := ih
    by_cases hk : keep1 c = true
    · have hk2 := h12 c hk
      refine ⟨?_, ?_, ?_⟩
      · rw [collapseAux, if_pos hk, collapseAux, if_pos hk2, ih1]
      · rw [collapseAux, if_pos hk, collapseAux, if_pos hk2, ih1]
      · rw [collapseAux, if_pos hk, collapseAux, if_pos hk2, ih1]
    · refine ⟨?_, ?_, ?_⟩
      · rw [collapseAux, if_neg hk, if_neg (by simp), collapseAux,
          if_neg (by simp [hsp]), if_neg (by simp), ih3]
      · rw [collapseAux, if_neg hk, if_pos rfl]
        exact ih2
      · rw [collapseAux, if_neg hk, if_pos rfl]
        exact ih3

theorem cleanData_eq (l : List Char) :
    cleanData l = collapseNonAlnum (stripTags l) :=
  (collapseAux_stable isAlnum (fun c => !(isWs c))
    (fun _ hc => alnum_not_ws hc) (by decide) (stripTags l)).1

theorem cleanData_chars (l : List Char) :
    ∀ c ∈ cleanData l, isAlnum c = true ∨ c = ' ' := by
  rw [cleanData_eq]
  intro c hc
  exact collapseAux_mem_keep isAlnum (stripTags l) false c hc

theorem cleanData_joinSp (ws : List (List Char))
    (h : ∀ w ∈ ws, w ≠ [] ∧ ∀ c ∈ w, isAlnum c = true) :
    cleanData (joinSp ws) = joinSp ws := by
  have hlt : ∀ c ∈ joinSp ws, c ≠ '<' := by
    intro c hc
    rcases joinSp_mem ws c hc with ⟨w, hw, hcw⟩ | rfl
    · exact alnum_ne_lt ((h w hw).2 c hcw)
    · decide
  have h2 : ∀ w ∈ ws, w ≠ [] ∧ ∀ c ∈ w, (!(isWs c)) = true :=
    fun w hw => ⟨(h w hw).1, fun c hc => alnum_not_ws ((h w hw).2 c hc)⟩
  unfold cleanData stripTags
  rw [stripAux_no_lt (joinSp ws) hlt]
  unfold collapseNonAlnum
  rw [canonical_fixed isAlnum (by decide) ws h]
  unfold collapseWs
  rw [canonical_fixed (fun c => !(isWs c)) (by decide) ws h2]

theorem cleanData_words_alnum (l : List Char) :
    ∀ w ∈ splitWords (cleanData l), w ≠ [] ∧ ∀ c ∈ w, isAlnum c = true := by
  intro w hw
  obtain ⟨hne, hc⟩ := splitWords_sound (cleanData l) w hw
  refine ⟨hne, fun c hcw => ?_⟩
  rcases cleanData_chars l c (hc c hcw).1 with h1 | h1
  · exact h1
  · exact absurd h1 (hc c hcw).2

theorem mk_ne_empty {w : List Char} (h : w ≠ []) : String.mk w ≠ "" := by
  intro hc
  exact h (congrArg String.data hc)

theorem eq_empty_of_data_eq_nil {t : String} (h : t.data = []) : t = "" := by
  cases t with
  | mk d =>
    rw [data_mk] at h
    rw [h]

theorem normCore_data (f : String → String) (s : String) :
    normCore wordsStr f s = String.mk (joinSp
      ((splitWords (cleanData s.data)).map
        (fun w => (f (String.mk w)).data))) := by
  simp only [normCore, joinTokens, wordsStr, List.map_map]
  rfl

theorem normCore_idem (f : String → String)
    (hf : ∀ w : String, w ≠ "" → isAlnumStr w = true →
      f w ≠ "" ∧ isAlnumStr (f w) = true)
    (hfi : ∀ w : String, w ≠ "" → isAlnumStr w = true → f (f w) = f w)
    (s : String) :
    normCore wordsStr f (normCore wordsStr f s) = normCore wordsStr f s := by
  have htoks := cleanData_words_alnum s.data
  have hG : ∀ w ∈ (splitWords (cleanData s.data)).map
      (fun w => (f (String.mk w)).data), w ≠ [] ∧ ∀ c ∈ w, isAlnum c = true := by
    intro w hw
    obtain ⟨w0, hw0, rfl⟩ := List.mem_map.mp hw
    obtain ⟨hne0, hal0⟩ := htoks w0 hw0
    have h1 : String.mk w0 ≠ "" := mk_ne_empty hne0
    have h2 : isAlnumStr (String.mk w0) = true := by
      show w0.all isAlnum = true
      exact List.all_eq_true.mpr hal0
    obtain ⟨hne1, hal1⟩ := hf (String.mk w0) h1 h2
    refine ⟨fun hc => hne1 (eq_empty_of_data_eq_nil hc), fun c hc => ?_⟩
    exact List.all_eq_true.mp hal1 c hc
  rw [normCore_data f s, normCore_data f (String.mk (joinSp
    ((splitWords (cleanData s.data)).map (fun w => (f (String.mk w)).data)))),
    data_mk, cleanData_joinSp _ hG, splitWords_joinSp _
      (fun w hw => ⟨(hG w hw).1, fun c hc => alnum_ne_sp ((hG w hw).2 c hc)⟩),
    List.map_map]
  congr 1
  congr 1
  apply List.map_congr_left
  intro w0 hw0
  obtain ⟨hne0, hal0⟩ := htoks w0 hw0
  have h1 : String.mk w0 ≠ "" := mk_ne_empty hne0
  have h2 : isAlnumStr (String.mk w0) = true := by
    show w0.all isAlnum = true
    exact List.all_eq_true.mpr hal0
  show (f (String.mk ((f (String.mk w0)).data))).data = (f (String.mk w0)).data
  have heta : String.mk ((f (String.mk w0)).data) = f (String.mk w0) := rfl
  rw [heta, hfi (String.mk w0) h1 h2]

theorem normCore_chars (f : String → String)
    (hal : ∀ w : String, isAlnumStr w = true → isAlnumStr (f w) = true)
    (s : String) :
    ∀ c ∈ (normCore wordsStr f s).data, isAlnum c = true ∨ c = ' ' := by
  rw [normCore_data, data_mk]
  intro c hc
  rcases joinSp_mem _ c hc with ⟨w, hw, hcw⟩ | rfl
  · obtain ⟨w0, hw0, rfl⟩ := List.mem_map.mp hw
    obtain ⟨_, hal0⟩ := cleanData_words_alnum s.data w0 hw0
    have h2 : isAlnumStr (String.mk w0) = true := by
      show w0.all isAlnum = true
      exact List.all_eq_true.mpr hal0
    exact Or.inl (List.all_eq_true.mp (hal (String.mk w0) h2) c hcw)
  · exact Or.inr rfl

/-- C7: the normalizer is idempotent — running the preprocessor on its own
output reproduces that output, for every input (in particular inputs with
markup and punctuation).  The external tokenizer is whitespace tokenization
on the cleaned text, and the external token normalizer (stemmer or
lemmatizer) is assumed idempotent and alphanumeric-preserving on nonempty
alphanumeric tokens; the repository's regex pipeline is proved idempotent
outright. -/
theorem c7_normalizer_idempotent (P : ExtParams) (mode : String)
    (hmode : mode = "stem" ∨ mode = "lemma")
    (htok : ∀ t, P.tok t = wordsStr t)
    (hf : ∀ w : String, w ≠ "" → isAlnumStr w = true →
      modeMap P mode w ≠ "" ∧ isAlnumStr (modeMap P mode w) = true)
    (hfi : ∀ w : String, w ≠ "" → isAlnumStr w = true →
      modeMap P mode (modeMap P mode w) = modeMap P mode w)
    (x : PyVal) :
    ∃ y, preprocessor P mode x = Except.ok y ∧
      preprocessor P mode y = Except.ok y := by
  have htokf : P.tok = wordsStr := funext htok
  have hnc : normCore P.tok (modeMap P mode) =
      normCore wordsStr (modeMap P mode) := by
    rw [htokf]
  have hidem : ∀ t, normCore P.tok (modeMap P mode)
      (normCore P.tok (modeMap P mode) t) =
        normCore P.tok (modeMap P mode) t := by
    intro t
    rw [hnc]
    exact normCore_idem (modeMap P mode) hf hfi t
  cases x with
  | str s =>
    refine ⟨PyVal.list [normCore P.tok (modeMap P mode) s],
      preprocessor_str_ok P hmode s, ?_⟩
    rw [preprocessor_list_ok P hmode]
    simp [hidem s]
  | list l =>
    refine ⟨PyVal.list (l.map (normCore P.tok (modeMap P mode))),
      preprocessor_list_ok P hmode l, ?_⟩
    rw [preprocessor_list_ok P hmode]
    congr 1
    congr 1
    rw [List.map_map]
    apply List.map_congr_left
    intro t _
    exact hidem t

theorem c7_normalizer_idempotent_witness :
    ∃ y, preprocessor P0 "stem"
        (PyVal.str "Wow!<br /><br />Great movie...") = Except.ok y ∧
      preprocessor P0 "stem" y = Except.ok y :=
  c7_normalizer_idempotent P0 "stem" (Or.inl rfl) (fun _ => rfl)
    (by intro w h1 h2; simpa [modeMap, P0] using ⟨h1, h2⟩)
    (by intro w _ _; simp [modeMap, P0])
    (PyVal.str "Wow!<br /><br />Great movie...")

/-- C10: under a recognized mode, every string in the preprocessor's output
consists only of ASCII alphanumeric characters and space separators — no
markup tag character and no other punctuation survives (with whitespace
tokenization and an alphanumeric-preserving external token normalizer). -/
theorem c10_output_alnum (P : ExtParams) (mode : String)
    (hmode : mode = "stem" ∨ mode = "lemma")
    (htok : ∀ t, P.tok t = wordsStr t)
    (hal : ∀ w : String, isAlnumStr w = true →
      isAlnumStr (modeMap P mode w) = true)
    (x : PyVal) :
    ∃ outs, preprocessor P mode x = Except.ok (PyVal.list outs) ∧
      ∀ t ∈ outs, ∀ c ∈ t.data, isAlnum c = true ∨ c = ' ' := by
  have htokf : P.tok = wordsStr := funext htok
  have hchars : ∀ s, ∀ c ∈ (normCore P.tok (modeMap P mode) s).data,
      isAlnum c = true ∨ c = ' ' := by
    intro s
    rw [show normCore P.tok = normCore wordsStr from by rw [htokf]]
    exact normCore_chars (modeMap P mode) hal s
  cases x with
  | str s =>
    refine ⟨[normCore P.tok (modeMap P mode) s],
      preprocessor_str_ok P hmode s, ?_⟩
    intro t ht c hc
    rw [List.mem_singleton] at ht
    subst ht
    exact hchars s c hc
  | list l =>
    refine ⟨l.map (normCore P.tok (modeMap P mode)),
      preprocessor_list_ok P hmode l, ?_⟩
    intro t ht c hc
    obtain ⟨s, _, rfl⟩ := List.mem_map.mp ht
    exact hchars s c hc

theorem c10_output_alnum_witness :
    ∃ outs, preprocessor P0 "stem"
        (PyVal.str "It is a <b>bad</b> movie, honestly!") =
      Except.ok (PyVal.list outs) ∧
      ∀ t ∈ outs, ∀ c ∈ t.data, isAlnum c = true ∨ c = ' ' :=
  c10_output_alnum P0 "stem" (Or.inl rfl) (fun _ => rfl)
    (by intro w h; simpa [modeMap, P0] using h)
    (PyVal.str "It is a <b>bad</b> movie, honestly!")
